import Mathlib

/-!
Verification of the tab-hoarder core (domain extraction, aggregation,
tab reconciliation, session store) against its specification.

Strings are modelled as `List Char`; Rust `str::len` (UTF-8 byte length)
is modelled by `utf8Len`, character-level operations (`chars()`, split on
an ASCII character, ASCII-range case folding) operate on the char list
directly.
-/

abbrev Str := List Char

def strOf (s : String) : Str := s.data

/-- Rust `str::trim`: remove whitespace from both ends. -/
def trimStr (s : Str) : Str :=
  ((s.dropWhile Char.isWhitespace).reverse.dropWhile Char.isWhitespace).reverse

/-- Recursion for `stripAll`, structural on a fuel argument (the fuel is
always at least the list length, so the `0, _ :: _` case is unreachable). -/
def stripAllAux (pat : Str) : Nat → Str → Str
  | _, [] => []
  | 0, s => s
  | fuel + 1, c :: rest =>
    if pat.isPrefixOf (c :: rest) ∧ pat ≠ [] then
      stripAllAux pat fuel (rest.drop (pat.length - 1))
    else
      c :: stripAllAux pat fuel rest

/-- Rust `str::replace(pat, "")` for a pattern: scan left to right, drop
every (non-overlapping) occurrence of `pat`, keep all other characters. -/
def stripAll (pat : Str) (s : Str) : Str := stripAllAux pat s.length s

/-- Rust `str::to_lowercase`, modelled for the ASCII range. -/
def toLowerStr (s : Str) : Str := s.map Char.toLower

/-- UTF-8 byte length of a string (Rust `str::len`). -/
def utf8Len (s : Str) : Nat := (s.map Char.utf8Size).sum

/-- `extract_hostname` from `src/domain.rs`: trim, remove the scheme
tokens `https://`, `http://`, `ftp://` (whole-string replaces, in that
order), keep everything before the first `/`, then before the first `:`,
lower-case; empty result is failure. -/
def extract_hostname (url : Str) : Option Str :=
  let url_clean :=
    stripAll (strOf "ftp://") (stripAll (strOf "http://")
      (stripAll (strOf "https://") (trimStr url)))
  let hostname_with_port := (url_clean.splitOn '/').headD []
  let hostname := toLowerStr ((hostname_with_port.splitOn ':').headD [])
  if hostname = [] then none else some hostname

/-- `is_ip_address` from `src/domain.rs`: first character is an ASCII
digit and every character is an ASCII digit or `.`. -/
def is_ip_address (s : Str) : Bool :=
  (match s.head? with
   | some c => c.isDigit
   | none => false)
  && s.all (fun c => c.isDigit || c = '.')

/-- Body of the closure inside `extract_domain` (`src/domain.rs`): the
hostname-to-canonical-domain rule.  `utf8Len tld = 2` models Rust
`tld.len() == 2` (byte length). -/
def domain_from_hostname (hostname : Str) : Str :=
  if hostname = strOf "localhost" ∨ is_ip_address hostname then hostname
  else
    let parts := hostname.splitOn '.'
    if parts.length < 2 then hostname
    else
      let tld := parts.getLastD []
      let num_parts :=
        if 3 ≤ parts.length ∧ utf8Len tld = 2 ∧
            (parts.getD (parts.length - 2) [] = strOf "co" ∨
             parts.getD (parts.length - 2) [] = strOf "com") then 3 else 2
      List.intercalate (strOf ".") (parts.drop (parts.length - num_parts))

/-- `extract_domain` from `src/domain.rs`. -/
def extract_domain (url : Str) : Option Str :=
  if url = [] then none
  else (extract_hostname url).map domain_from_hostname

/-- The `wasm_bindgen` wrapper `extract_domain` from `src/lib.rs`:
failure is collapsed to the literal string `"invalid"`. -/
def extract_domain_js (url : Str) : Str :=
  (extract_domain url).getD (strOf "invalid")

example : extract_domain (strOf "https://www.google.com") = some (strOf "google.com") := by decide
example : extract_domain (strOf "https://news.bbc.co.uk/article") = some (strOf "bbc.co.uk") := by decide
example : extract_domain (strOf "https://shop.example.com.au/products") = some (strOf "example.com.au") := by decide
example : extract_domain (strOf "http://127.0.0.1:8080") = some (strOf "127.0.0.1") := by decide
example : extract_domain (strOf "https://localhost:3000") = some (strOf "localhost") := by decide
example : extract_domain (strOf "") = none := by decide
example : extract_domain (strOf "https://") = none := by decide
example : extract_domain (strOf "not-a-url") = some (strOf "not-a-url") := by decide
example : extract_domain (strOf "https://api.zinfandel.io") = some (strOf "zinfandel.io") := by decide

/-- The hostname pipeline exactly as the claim words it (no trimming of
surrounding whitespace): remove the three scheme tokens, cut at the first
`/`, cut at the first `:`, lower-case, fail on empty. -/
def hostname_per_claim (url : Str) : Option Str :=
  let noScheme :=
    stripAll (strOf "ftp://") (stripAll (strOf "http://")
      (stripAll (strOf "https://") url))
  let beforeSlash := noScheme.takeWhile (fun x => x != '/')
  let beforePort := beforeSlash.takeWhile (fun x => x != ':')
  let lowered := toLowerStr beforePort
  if lowered = [] then none else some lowered

theorem headD_splitOn (c : Char) (l : Str) :
    (l.splitOn c).headD [] = l.takeWhile (fun x => x != c) := by
  induction l with
  | nil => rfl
  | cons x xs ih =>
    rw [List.splitOn, List.splitOnP_cons]
    by_cases hx : x = c
    · simp [hx, List.takeWhile_cons]
    · have hne : xs.splitOnP (· == c) ≠ [] := List.splitOnP_ne_nil _ xs
      cases hsp : xs.splitOnP (· == c) with
      | nil => exact absurd hsp hne
      | cons a t =>
        simp only [beq_iff_eq, hx, if_false, hsp, List.modifyHead,
          List.headD, List.takeWhile_cons]
        have : (x != c) = true := by simp [hx]
        rw [this]
        simp only [List.splitOn, hsp] at ih
        simpa using ih

/-- C3 counterexample: on the one-space input the real pipeline trims the
whitespace first and fails, while the pipeline described by the claim
(which never trims) succeeds with the single-space hostname. -/
theorem C3_hostname_counterexample :
    extract_hostname (strOf " ") = none ∧
    hostname_per_claim (strOf " ") = some (strOf " ") ∧
    extract_hostname (strOf " ") ≠ hostname_per_claim (strOf " ") := by
  refine ⟨rfl, rfl, by decide⟩

/-- C3 (amended): for every input URL string, hostname extraction first
trims leading and trailing whitespace and then behaves exactly as the
claim describes: it removes every occurrence of the literal scheme tokens
`https://`, `http://` and `ftp://` (whole-string replaces, in that
order), takes the substring up to the first `/`, then up to the first
`:`, lower-cases the result, and fails exactly when the result is
empty. -/
theorem C3_hostname_pipeline (url : Str) :
    extract_hostname url = hostname_per_claim (trimStr url) := by
  unfold extract_hostname hostname_per_claim
  simp only [headD_splitOn]

/-- C1 counterexample: the hostname `a.co.é` is neither `localhost` nor an
IP literal and has 3 segments whose last segment has 1 character (not 2),
so the claim requires the last 2 segments `co.é`; the code instead tests
the UTF-8 byte length (2 for `é`) and returns all 3 segments. -/
theorem C1_counterexample :
    strOf "a.co.é" ≠ strOf "localhost" ∧
    is_ip_address (strOf "a.co.é") = false ∧
    ((strOf "a.co.é").splitOn '.').length = 3 ∧
    (((strOf "a.co.é").splitOn '.').getLastD []).length = 1 ∧
    domain_from_hostname (strOf "a.co.é") = strOf "a.co.é" ∧
    domain_from_hostname (strOf "a.co.é") ≠
      List.intercalate (strOf ".") (((strOf "a.co.é").splitOn '.').drop 1) := by
  decide

/-- C1 (amended): for every hostname that is not `localhost` and not an
IP-literal match, with segments the split of the hostname on `.`: if
there are fewer than 2 segments the hostname is returned unchanged; if
there are at least 3 segments, the last segment's UTF-8 encoding is
exactly 2 bytes (the code tests byte length, not character count), and
the second-to-last segment is exactly `co` or `com`, the result is the
last 3 segments joined by `.`; otherwise (at least 2 segments) the
result is the last 2 segments joined by `.`. -/
theorem C1_domain_rule (h : Str)
    (hloc : h ≠ strOf "localhost") (hip : is_ip_address h = false) :
    ((h.splitOn '.').length < 2 → domain_from_hostname h = h) ∧
    ((3 ≤ (h.splitOn '.').length ∧ utf8Len ((h.splitOn '.').getLastD []) = 2 ∧
        ((h.splitOn '.').getD ((h.splitOn '.').length - 2) [] = strOf "co" ∨
         (h.splitOn '.').getD ((h.splitOn '.').length - 2) [] = strOf "com")) →
      domain_from_hostname h =
        List.intercalate (strOf ".")
          ((h.splitOn '.').drop ((h.splitOn '.').length - 3))) ∧
    ((2 ≤ (h.splitOn '.').length ∧
      ¬(3 ≤ (h.splitOn '.').length ∧ utf8Len ((h.splitOn '.').getLastD []) = 2 ∧
        ((h.splitOn '.').getD ((h.splitOn '.').length - 2) [] = strOf "co" ∨
         (h.splitOn '.').getD ((h.splitOn '.').length - 2) [] = strOf "com"))) →
      domain_from_hostname h =
        List.intercalate (strOf ".")
          ((h.splitOn '.').drop ((h.splitOn '.').length - 2))) := by
  unfold domain_from_hostname
  rw [if_neg (by simp [hloc, hip])]
  refine ⟨fun hlt => ?_, fun hcond => ?_, fun hcond => ?_⟩
  · rw [if_pos hlt]
  · rw [if_neg (by omega)]
    dsimp only
    rw [if_pos hcond]
  · rw [if_neg (by omega)]
    dsimp only
    rw [if_neg hcond.2]

theorem C1_witness :
    ((strOf "news.bbc.co.uk").splitOn '.').length = 4 ∧
    domain_from_hostname (strOf "news.bbc.co.uk") =
      List.intercalate (strOf ".")
        (((strOf "news.bbc.co.uk").splitOn '.').drop
          (((strOf "news.bbc.co.uk").splitOn '.').length - 3)) :=
  ⟨by decide,
   (C1_domain_rule (strOf "news.bbc.co.uk") (by decide) (by decide)).2.1
     (by decide)⟩

/-- C2 counterexample: the empty URL fails extraction and the wrapper
maps it to `"invalid"`, while the URL `invalid` succeeds with the domain
`"invalid"` — so the failure value collides with a success value. -/
theorem C2_counterexample :
    extract_domain (strOf "") = none ∧
    extract_domain (strOf "invalid") = some (strOf "invalid") ∧
    extract_domain_js (strOf "") = extract_domain_js (strOf "invalid") := by
  refine ⟨rfl, rfl, rfl⟩

/-- C2 (amended): the wrapper's failure sentinel can only collide with
the domain string `invalid` itself: whenever extraction fails on one URL
and succeeds on another with the same wrapper output, the successful
domain is the literal string `invalid`. -/
theorem C2_sentinel_collision (u1 u2 d : Str)
    (h1 : extract_domain u1 = none) (h2 : extract_domain u2 = some d)
    (heq : extract_domain_js u1 = extract_domain_js u2) :
    d = strOf "invalid" := by
  unfold extract_domain_js at heq
  rw [h1, h2] at heq
  simpa using heq.symm

theorem C2_witness : strOf "invalid" = strOf "invalid" :=
  C2_sentinel_collision (strOf "") (strOf "invalid") (strOf "invalid")
    rfl rfl rfl

/-- C4: whenever hostname extraction yields `localhost`, or a string
whose first character is an ASCII digit and whose characters are all
ASCII digits or `.`, `extract_domain` returns that hostname unchanged;
the heuristic accepts the malformed digit/dot strings `1.2.3.` and
`999.999`, and rejects IPv6-style literals. -/
theorem C4_passthrough :
    (∀ url h, extract_hostname url = some h →
      (h = strOf "localhost" ∨ is_ip_address h = true) →
      extract_domain url = some h) ∧
    is_ip_address (strOf "1.2.3.") = true ∧
    is_ip_address (strOf "999.999") = true ∧
    is_ip_address (strOf "::1") = false ∧
    is_ip_address (strOf "fe80::1") = false ∧
    is_ip_address (strOf "1::2") = false ∧
    is_ip_address (strOf "[::1]") = false := by
  refine ⟨fun url h hh hcase => ?_, rfl, rfl, rfl, rfl, rfl, rfl⟩
  have hne : url ≠ [] := by
    intro e
    rw [e] at hh
    exact Option.noConfusion ((rfl : extract_hostname [] = none) ▸ hh)
  unfold extract_domain
  rw [if_neg hne, hh, Option.map_some']
  unfold domain_from_hostname
  rw [if_pos (by simpa using hcase)]

theorem C4_witness :
    extract_domain (strOf "http://127.0.0.1:8080") = some (strOf "127.0.0.1") :=
  C4_passthrough.1 (strOf "http://127.0.0.1:8080") (strOf "127.0.0.1")
    (by decide) (Or.inr (by decide))

structure TabInfo where
  id : Int
  url : Str
  title : Str
  pinned : Bool
  index : Int
deriving DecidableEq

theorem enumFrom_shift {α : Type} (l : List α) :
    ∀ n : Nat, List.enumFrom (n + 1) l = (List.enumFrom n l).map (Prod.map (· + 1) id) := by
  induction l with
  | nil => intro n; rfl
  | cons t ts ih =>
    intro n
    rw [List.enumFrom_cons, List.enumFrom_cons, List.map_cons, ih (n + 1)]
    rfl

theorem enum_cons_map {α : Type} (t : α) (ts : List α) :
    (t :: ts).enum = (0, t) :: ts.enum.map (Prod.map (· + 1) id) := by
  rw [List.enum_cons, List.enum, enumFrom_shift]

def make_tabs_unique_aux (seen : List Str) : List TabInfo → List TabInfo × List Int
  | [] => ([], [])
  | t :: ts =>
    if t.url ∈ seen then
      ((make_tabs_unique_aux seen ts).1, t.id :: (make_tabs_unique_aux seen ts).2)
    else
      (t :: (make_tabs_unique_aux (t.url :: seen) ts).1,
       (make_tabs_unique_aux (t.url :: seen) ts).2)

/-- `make_tabs_unique` from `src/operations.rs`. -/
def make_tabs_unique (tabs : List TabInfo) : List TabInfo × List Int :=
  make_tabs_unique_aux [] tabs

/-- An indexed tab has a strictly earlier tab with the same URL. -/
def dup_of_earlier (tabs : List TabInfo) (p : Nat × TabInfo) : Bool :=
  (tabs.take p.1).any (fun s => decide (s.url = p.2.url))

def survivors_spec (tabs : List TabInfo) : List TabInfo :=
  (tabs.enum.filter (fun p => !dup_of_earlier tabs p)).map Prod.snd

def removed_spec (tabs : List TabInfo) : List Int :=
  (tabs.enum.filter (fun p => dup_of_earlier tabs p)).map (fun p => p.2.id)

theorem filter_map_shift (f : Nat × TabInfo → Bool) (l : List (Nat × TabInfo)) :
    (l.map (Prod.map (· + 1) id)).filter f
      = (l.filter (fun p => f (p.1 + 1, p.2))).map (Prod.map (· + 1) id) := by
  rw [List.filter_map]
  congr 1

theorem snd_comp_shift :
    Prod.snd ∘ Prod.map (fun x : Nat => x + 1) (id : TabInfo → TabInfo) = Prod.snd := by
  funext p
  cases p
  rfl

theorem id_comp_shift :
    (fun p : Nat × TabInfo => p.2.id) ∘ Prod.map (fun x : Nat => x + 1) id
      = fun p : Nat × TabInfo => p.2.id := by
  funext p
  cases p
  rfl

theorem make_tabs_unique_aux_spec (ts : List TabInfo) : ∀ seen : List Str,
    make_tabs_unique_aux seen ts =
      ((ts.enum.filter
          (fun p => !(decide (p.2.url ∈ seen) || dup_of_earlier ts p))).map Prod.snd,
       (ts.enum.filter
          (fun p => decide (p.2.url ∈ seen) || dup_of_earlier ts p)).map
         (fun p => p.2.id)) := by
  induction ts with
  | nil => intro seen; rfl
  | cons t ts ih =>
    intro seen
    rw [enum_cons_map]
    simp only [make_tabs_unique_aux]
    have hdup0 : dup_of_earlier (t :: ts) (0, t) = false := by
      simp [dup_of_earlier]
    have hdups : ∀ p : Nat × TabInfo,
        dup_of_earlier (t :: ts) (p.1 + 1, p.2)
          = (decide (t.url = p.2.url) || dup_of_earlier ts p) := by
      intro p
      simp [dup_of_earlier, List.take_succ_cons, List.any_cons]
    by_cases hm : t.url ∈ seen
    · rw [if_pos hm, ih seen]
      rw [List.filter_cons, List.filter_cons, filter_map_shift, filter_map_shift]
      rw [if_neg (by simp [hdup0, hm]), if_pos (by simp [hm])]
      rw [List.map_cons, List.map_map, List.map_map, snd_comp_shift, id_comp_shift]
      dsimp only
      simp only [Prod.mk.injEq]
      constructor
      · apply congrArg
        apply List.filter_congr
        intro p _
        rw [hdups p]
        by_cases hts : t.url = p.2.url
        · have hmem : p.2.url ∈ seen := by rw [← hts]; exact hm
          simp [hmem]
        · simp [hts]
      · apply congrArg
        apply congrArg
        apply List.filter_congr
        intro p _
        rw [hdups p]
        by_cases hts : t.url = p.2.url
        · have hmem : p.2.url ∈ seen := by rw [← hts]; exact hm
          simp [hmem]
        · simp [hts]
    · rw [if_neg hm, ih (t.url :: seen)]
      rw [List.filter_cons, List.filter_cons, filter_map_shift, filter_map_shift]
      rw [if_pos (by simp [hdup0, hm]), if_neg (by simp [hdup0, hm])]
      rw [List.map_cons, List.map_map, List.map_map, snd_comp_shift, id_comp_shift]
      dsimp only
      simp only [Prod.mk.injEq]
      have hpt : ∀ p : Nat × TabInfo,
          (decide (p.2.url ∈ t.url :: seen) || dup_of_earlier ts p)
            = (decide (p.2.url ∈ seen) ||
                (decide (t.url = p.2.url) || dup_of_earlier ts p)) := by
        intro p
        by_cases hts : t.url = p.2.url
        · simp [List.mem_cons, hts, eq_comm]
        · have hst : ¬(p.2.url = t.url) := fun h => hts h.symm
          by_cases hs : p.2.url ∈ seen
          · simp [List.mem_cons, hs]
          · simp [List.mem_cons, hs, hts, hst]
      constructor
      · apply congrArg
        apply congrArg
        apply List.filter_congr
        intro p _
        rw [hdups p, ← hpt p]
      · apply congrArg
        apply List.filter_congr
        intro p _
        rw [hdups p, ← hpt p]

/-- C5: `make_tabs_unique` keeps exactly the first occurrence of each
distinct URL (byte-for-byte comparison), returns survivors in input
order, and reports as removed exactly the identifiers of every later tab
whose URL equals an earlier tab's URL. -/
theorem C5_make_tabs_unique (tabs : List TabInfo) :
    (make_tabs_unique tabs).1 = survivors_spec tabs ∧
    (make_tabs_unique tabs).2 = removed_spec tabs := by
  unfold make_tabs_unique survivors_spec removed_spec
  rw [make_tabs_unique_aux_spec]
  dsimp only
  constructor
  · apply congrArg
    apply List.filter_congr
    intro p _
    simp
  · apply congrArg
    apply List.filter_congr
    intro p _
    simp

example :
    make_tabs_unique
      [⟨1, strOf "https://google.com", strOf "Google 1", false, 1⟩,
       ⟨2, strOf "https://github.com", strOf "GitHub", false, 2⟩,
       ⟨3, strOf "https://google.com", strOf "Google 2", false, 3⟩,
       ⟨4, strOf "https://microsoft.com", strOf "Microsoft", false, 4⟩,
       ⟨5, strOf "https://github.com", strOf "GitHub 2", false, 5⟩]
      = ([⟨1, strOf "https://google.com", strOf "Google 1", false, 1⟩,
          ⟨2, strOf "https://github.com", strOf "GitHub", false, 2⟩,
          ⟨4, strOf "https://microsoft.com", strOf "Microsoft", false, 4⟩],
         [3, 5]) := by decide

/-- Rust `Ord::cmp` on natural numbers. -/
def cmpNat (a b : Nat) : Ordering :=
  if a < b then .lt else if b < a then .gt else .eq

/-- Rust `char`/byte comparison: code-point order (equals UTF-8 byte
order). -/
def cmpChar (a b : Char) : Ordering := cmpNat a.toNat b.toNat

/-- Rust `Ord::cmp` on strings: lexicographic, shorter proper front
piece first. -/
def cmpStr : Str → Str → Ordering
  | [], [] => .eq
  | [], _ :: _ => .lt
  | _ :: _, [] => .gt
  | a :: as, b :: bs => (cmpChar a b).then (cmpStr as bs)

theorem cmpNat_swap (a b : Nat) : cmpNat b a = (cmpNat a b).swap := by
  unfold cmpNat
  split_ifs <;> first | rfl | omega

theorem cmpNat_eq_iff (a b : Nat) : cmpNat a b = .eq ↔ a = b := by
  unfold cmpNat
  split_ifs <;> simp <;> omega

theorem cmpNat_gt_iff (a b : Nat) : cmpNat a b = .gt ↔ b < a := by
  unfold cmpNat
  split_ifs <;> simp <;> omega

theorem cmpNat_lt_iff (a b : Nat) : cmpNat a b = .lt ↔ a < b := by
  unfold cmpNat
  split_ifs <;> simp <;> omega

theorem then_swap (x y : Ordering) : (x.then y).swap = x.swap.then y.swap := by
  cases x <;> rfl

theorem then_eq_gt (x y : Ordering) :
    x.then y = .gt ↔ x = .gt ∨ (x = .eq ∧ y = .gt) := by
  cases x <;> simp [Ordering.then]

theorem then_eq_eq (x y : Ordering) :
    x.then y = .eq ↔ x = .eq ∧ y = .eq := by
  cases x <;> simp [Ordering.then]

theorem then_eq_lt (x y : Ordering) :
    x.then y = .lt ↔ x = .lt ∨ (x = .eq ∧ y = .lt) := by
  cases x <;> simp [Ordering.then]

theorem cmpChar_swap (a b : Char) : cmpChar b a = (cmpChar a b).swap :=
  cmpNat_swap _ _

theorem cmpChar_eq_iff (a b : Char) : cmpChar a b = .eq ↔ a = b := by
  rw [cmpChar, cmpNat_eq_iff]
  constructor
  · intro h
    exact Char.ext (UInt32.ext h)
  · intro h
    rw [h]

theorem cmpStr_swap (a : Str) : ∀ b : Str, cmpStr b a = (cmpStr a b).swap := by
  induction a with
  | nil =>
    intro b
    cases b <;> rfl
  | cons x xs ih =>
    intro b
    cases b with
    | nil => rfl
    | cons y ys =>
      show (cmpChar y x).then (cmpStr ys xs) = _
      rw [cmpChar_swap, ih ys, ← then_swap]
      rfl

theorem cmpStr_eq_iff (a : Str) : ∀ b : Str, cmpStr a b = .eq ↔ a = b := by
  induction a with
  | nil =>
    intro b
    cases b <;> simp [cmpStr]
  | cons x xs ih =>
    intro b
    cases b with
    | nil => simp [cmpStr]
    | cons y ys =>
      show (cmpChar x y).then (cmpStr xs ys) = .eq ↔ _
      rw [then_eq_eq, cmpChar_eq_iff, ih ys]
      simp

theorem ordering_ne_gt_iff (o : Ordering) : o ≠ .gt ↔ o = .lt ∨ o = .eq := by
  cases o <;> simp

theorem cmpStr_lt_trans (a : Str) :
    ∀ b c : Str, cmpStr a b = .lt → cmpStr b c = .lt → cmpStr a c = .lt := by
  induction a with
  | nil =>
    intro b c hab hbc
    cases b with
    | nil => exact hbc
    | cons y ys =>
      cases c with
      | nil => exact absurd hbc (by simp [cmpStr])
      | cons z zs => rfl
  | cons x xs ih =>
    intro b c hab hbc
    cases b with
    | nil => exact absurd hab (by simp [cmpStr])
    | cons y ys =>
      cases c with
      | nil => exact absurd hbc (by simp [cmpStr])
      | cons z zs =>
        rw [show cmpStr (x :: xs) (y :: ys) = (cmpChar x y).then (cmpStr xs ys) from rfl,
          then_eq_lt] at hab
        rw [show cmpStr (y :: ys) (z :: zs) = (cmpChar y z).then (cmpStr ys zs) from rfl,
          then_eq_lt] at hbc
        rw [show cmpStr (x :: xs) (z :: zs) = (cmpChar x z).then (cmpStr xs zs) from rfl,
          then_eq_lt]
        rcases hab with hxy | ⟨hxy, hxys⟩
        · rcases hbc with hyz | ⟨hyz, hyzs⟩
          · left
            rw [cmpChar, cmpNat_lt_iff] at hxy hyz ⊢
            omega
          · left
            rw [cmpChar_eq_iff] at hyz
            rw [← hyz]
            exact hxy
        · rcases hbc with hyz | ⟨hyz, hyzs⟩
          · left
            rw [cmpChar_eq_iff] at hxy
            rw [hxy]
            exact hyz
          · right
            rw [cmpChar_eq_iff] at hxy hyz
            exact ⟨by rw [hxy, hyz, cmpChar_eq_iff], ih ys zs hxys hyzs⟩

theorem cmpStr_le_trans {a b c : Str}
    (hab : cmpStr a b ≠ .gt) (hbc : cmpStr b c ≠ .gt) : cmpStr a c ≠ .gt := by
  rw [ordering_ne_gt_iff] at hab hbc ⊢
  rcases hab with hab | hab
  · rcases hbc with hbc | hbc
    · exact Or.inl (cmpStr_lt_trans a b c hab hbc)
    · rw [cmpStr_eq_iff] at hbc
      rw [← hbc]
      exact Or.inl hab
  · rw [cmpStr_eq_iff] at hab
    rw [hab]
    exact hbc

/-- The comparator inside `get_top_domains` (`src/domain.rs`):
`b.1.cmp(&a.1).then_with(|| a.0.cmp(&b.0))` — count descending, ties by
domain string ascending. -/
def cmpEntry (a b : Str × Nat) : Ordering :=
  (cmpNat b.2 a.2).then (cmpStr a.1 b.1)

/-- The sort order used by `get_top_domains`: comparator not `gt`. -/
def entryLe (a b : Str × Nat) : Prop := cmpEntry a b ≠ Ordering.gt

instance : DecidableRel entryLe := fun a b =>
  if h : cmpEntry a b = Ordering.gt then isFalse (fun hn => hn h) else isTrue h

theorem cmpEntry_swap (a b : Str × Nat) : cmpEntry b a = (cmpEntry a b).swap := by
  show (cmpNat a.2 b.2).then (cmpStr b.1 a.1)
      = ((cmpNat b.2 a.2).then (cmpStr a.1 b.1)).swap
  rw [then_swap, ← cmpNat_swap, ← cmpStr_swap]

theorem cmpEntry_eq_iff (a b : Str × Nat) : cmpEntry a b = .eq ↔ a = b := by
  unfold cmpEntry
  rw [then_eq_eq, cmpNat_eq_iff, cmpStr_eq_iff]
  constructor
  · rintro ⟨h2, h1⟩
    exact Prod.ext h1 h2.symm
  · rintro rfl
    exact ⟨rfl, rfl⟩

theorem entryLe_iff (a b : Str × Nat) :
    entryLe a b ↔ b.2 < a.2 ∨ (a.2 = b.2 ∧ cmpStr a.1 b.1 ≠ .gt) := by
  unfold entryLe cmpEntry
  rw [Ne, then_eq_gt, cmpNat_gt_iff, cmpNat_eq_iff, not_or, not_and]
  constructor
  · rintro ⟨h1, h2⟩
    rcases Nat.lt_or_ge b.2 a.2 with h | h
    · exact Or.inl h
    · have he : b.2 = a.2 := by omega
      exact Or.inr ⟨he.symm, h2 he⟩
  · rintro (h | ⟨he, hs⟩)
    · exact ⟨by omega, fun hba => by omega⟩
    · exact ⟨by omega, fun _ => hs⟩

theorem entry_le_total (a b : Str × Nat) : entryLe a b ∨ entryLe b a := by
  by_cases h : cmpEntry a b = Ordering.gt
  · right
    intro hn
    rw [cmpEntry_swap, h] at hn
    exact Ordering.noConfusion hn
  · exact Or.inl h

theorem entry_le_trans {a b c : Str × Nat}
    (hab : entryLe a b) (hbc : entryLe b c) : entryLe a c := by
  rw [entryLe_iff] at hab hbc ⊢
  rcases hab with hab | ⟨hab, sab⟩
  · rcases hbc with hbc | ⟨hbc, _⟩
    · exact Or.inl (by omega)
    · exact Or.inl (by omega)
  · rcases hbc with hbc | ⟨hbc, sbc⟩
    · exact Or.inl (by omega)
    · exact Or.inr ⟨by omega, cmpStr_le_trans sab sbc⟩

theorem entry_le_antisymm {a b : Str × Nat}
    (hab : entryLe a b) (hba : entryLe b a) : a = b := by
  rw [← cmpEntry_eq_iff]
  unfold entryLe at hab hba
  rw [cmpEntry_swap a b] at hba
  cases h : cmpEntry a b
  · rw [h] at hba
    exact absurd rfl hba
  · rfl
  · rw [h] at hab
    exact absurd rfl hab

instance : IsTotal (Str × Nat) entryLe := ⟨entry_le_total⟩
instance : IsTrans (Str × Nat) entryLe := ⟨fun _ _ _ => entry_le_trans⟩
instance : IsAntisymm (Str × Nat) entryLe := ⟨fun _ _ => entry_le_antisymm⟩

/-- `get_top_domains` from `src/domain.rs`: the map's entries (one
`(domain, count)` pair per key, in the map's iteration order) are sorted
with `cmpEntry` and the first `n` are kept.  A Rust stable sort is
modelled by insertion sort; every sort agrees here because `cmpEntry` is
total, transitive and antisymmetric. -/
def get_top_domains (counts : List (Str × Nat)) (n : Nat) : List (Str × Nat) :=
  (List.insertionSort entryLe counts).take n

/-- C6: `get_top_domains` returns the entries sorted by count descending
with ties broken by domain ascending, truncated to the first `n`; the
comparator is a total order (two entries compare equal only when they are
equal, so distinct domains never tie), hence the output is the same for
any iteration order of the input mapping. -/
theorem C6_get_top_domains (counts : List (Str × Nat)) (n : Nat) :
    get_top_domains counts n = (List.insertionSort entryLe counts).take n ∧
    (List.insertionSort entryLe counts).Perm counts ∧
    List.Pairwise
      (fun a b : Str × Nat => b.2 < a.2 ∨ (a.2 = b.2 ∧ cmpStr a.1 b.1 ≠ .gt))
      (get_top_domains counts n) ∧
    (∀ a b : Str × Nat, cmpEntry a b = .eq → a = b) ∧
    (∀ other : List (Str × Nat), counts.Perm other →
      get_top_domains counts n = get_top_domains other n) := by
  refine ⟨rfl, List.perm_insertionSort entryLe counts, ?_, ?_, ?_⟩
  · have hsorted : List.Sorted entryLe (List.insertionSort entryLe counts) :=
      List.sorted_insertionSort entryLe counts
    have htake : List.Pairwise entryLe (get_top_domains counts n) :=
      hsorted.sublist (List.take_sublist n _)
    exact htake.imp (fun hab => (entryLe_iff _ _).mp hab)
  · intro a b h
    exact (cmpEntry_eq_iff a b).mp h
  · intro other hperm
    unfold get_top_domains
    rw [List.eq_of_perm_of_sorted
      ((List.perm_insertionSort entryLe counts).trans
        (hperm.trans (List.perm_insertionSort entryLe other).symm))
      (List.sorted_insertionSort entryLe counts)
      (List.sorted_insertionSort entryLe other)]

theorem C6_witness :
    List.Perm
      [(strOf "github.com", 5), (strOf "google.com", 5), (strOf "microsoft.com", 5)]
      [(strOf "google.com", 5), (strOf "github.com", 5), (strOf "microsoft.com", 5)] ∧
    get_top_domains
      [(strOf "github.com", 5), (strOf "google.com", 5), (strOf "microsoft.com", 5)] 2
      = get_top_domains
        [(strOf "google.com", 5), (strOf "github.com", 5), (strOf "microsoft.com", 5)] 2 :=
  ⟨List.Perm.swap _ _ _,
   (C6_get_top_domains
      [(strOf "github.com", 5), (strOf "google.com", 5), (strOf "microsoft.com", 5)]
      2).2.2.2.2
     [(strOf "google.com", 5), (strOf "github.com", 5), (strOf "microsoft.com", 5)]
     (List.Perm.swap _ _ _)⟩

example :
    get_top_domains
      [(strOf "github.com", 5), (strOf "google.com", 5), (strOf "microsoft.com", 5)] 2
      = [(strOf "github.com", 5), (strOf "google.com", 5)] := by decide

example :
    get_top_domains
      [(strOf "google.com", 10), (strOf "github.com", 5),
       (strOf "microsoft.com", 8), (strOf "reddit.com", 3)] 3
      = [(strOf "google.com", 10), (strOf "microsoft.com", 8),
         (strOf "github.com", 5)] := by decide

/-- The comparator inside `sort_tabs_by_domain` (`src/operations.rs`):
`a.1.cmp(&b.1).then_with(|| a.0.url.cmp(&b.0.url))` — precomputed domain
ascending, ties by URL ascending. -/
def cmpTabDom (a b : TabInfo × Str) : Ordering :=
  (cmpStr a.2 b.2).then (cmpStr a.1.url b.1.url)

/-- The sort order used by `sort_tabs_by_domain`. -/
def tabDomLe (a b : TabInfo × Str) : Prop := cmpTabDom a b ≠ Ordering.gt

instance : DecidableRel tabDomLe := fun a b =>
  if h : cmpTabDom a b = Ordering.gt then isFalse (fun hn => hn h) else isTrue h

theorem cmpTabDom_swap (a b : TabInfo × Str) :
    cmpTabDom b a = (cmpTabDom a b).swap := by
  show (cmpStr b.2 a.2).then (cmpStr b.1.url a.1.url)
      = ((cmpStr a.2 b.2).then (cmpStr a.1.url b.1.url)).swap
  rw [then_swap, ← cmpStr_swap, ← cmpStr_swap]

theorem tabDomLe_iff (a b : TabInfo × Str) :
    tabDomLe a b ↔
      cmpStr a.2 b.2 = .lt ∨ (a.2 = b.2 ∧ cmpStr a.1.url b.1.url ≠ .gt) := by
  unfold tabDomLe cmpTabDom
  rw [Ne, then_eq_gt, not_or, not_and]
  constructor
  · rintro ⟨h1, h2⟩
    cases h : cmpStr a.2 b.2
    · exact Or.inl rfl
    · exact Or.inr ⟨(cmpStr_eq_iff _ _).mp h, h2 h⟩
    · exact absurd h h1
  · rintro (h | ⟨he, hs⟩)
    · rw [h]
      exact ⟨Ordering.noConfusion, fun hc => Ordering.noConfusion hc⟩
    · rw [he]
      rw [show cmpStr b.2 b.2 = .eq from (cmpStr_eq_iff _ _).mpr rfl]
      exact ⟨Ordering.noConfusion, fun _ => hs⟩

theorem tabDom_le_total (a b : TabInfo × Str) : tabDomLe a b ∨ tabDomLe b a := by
  by_cases h : cmpTabDom a b = Ordering.gt
  · right
    intro hn
    rw [cmpTabDom_swap, h] at hn
    exact Ordering.noConfusion hn
  · exact Or.inl h

theorem tabDom_le_trans {a b c : TabInfo × Str}
    (hab : tabDomLe a b) (hbc : tabDomLe b c) : tabDomLe a c := by
  rw [tabDomLe_iff] at hab hbc ⊢
  rcases hab with hab | ⟨hab, sab⟩
  · rcases hbc with hbc | ⟨hbc, _⟩
    · exact Or.inl (cmpStr_lt_trans _ _ _ hab hbc)
    · rw [← hbc]
      exact Or.inl hab
  · rcases hbc with hbc | ⟨hbc, sbc⟩
    · rw [hab]
      exact Or.inl hbc
    · exact Or.inr ⟨hab.trans hbc, cmpStr_le_trans sab sbc⟩

instance : IsTotal (TabInfo × Str) tabDomLe := ⟨tabDom_le_total⟩
instance : IsTrans (TabInfo × Str) tabDomLe := ⟨fun _ _ _ => tabDom_le_trans⟩

/-- `sort_tabs_by_domain` from `src/operations.rs`: pair each tab with
its extracted domain (dropping tabs whose extraction fails), sort the
pairs by domain then URL, return the tabs.  The Rust stable sort is
modelled by insertion sort. -/
def sort_tabs_by_domain (tabs : List TabInfo) : List TabInfo :=
  (List.insertionSort tabDomLe
    (tabs.filterMap (fun t => (extract_domain t.url).map (fun d => (t, d))))).map
    Prod.fst

theorem map_fst_filterMap_extract (tabs : List TabInfo) :
    (tabs.filterMap (fun t => (extract_domain t.url).map (fun d => (t, d)))).map
        Prod.fst
      = tabs.filter (fun t => (extract_domain t.url).isSome) := by
  induction tabs with
  | nil => rfl
  | cons t ts ih =>
    rw [List.filterMap_cons, List.filter_cons]
    cases h : extract_domain t.url with
    | none => simpa [h] using ih
    | some d => simpa [h] using ih

theorem mem_pairs_extract {tabs : List TabInfo} {p : TabInfo × Str}
    (hp : p ∈ tabs.filterMap (fun t => (extract_domain t.url).map (fun d => (t, d)))) :
    extract_domain p.1.url = some p.2 := by
  rw [List.mem_filterMap] at hp
  obtain ⟨a, _, ha⟩ := hp
  rw [Option.map_eq_some'] at ha
  obtain ⟨d, hd, had⟩ := ha
  rw [← had]
  exact hd

/-- C8: `sort_tabs_by_domain` silently drops every tab whose URL fails
domain extraction (the output is a permutation of the surviving tabs)
and orders the remainder by extracted domain ascending, ties by URL
ascending (consecutive output tabs satisfy the composite-key order). -/
theorem C8_sort_tabs_by_domain (tabs : List TabInfo) :
    (sort_tabs_by_domain tabs).Perm
      (tabs.filter (fun t => (extract_domain t.url).isSome)) ∧
    List.Pairwise
      (fun x y : TabInfo =>
        cmpStr ((extract_domain x.url).getD []) ((extract_domain y.url).getD [])
            = .lt ∨
          ((extract_domain x.url).getD [] = (extract_domain y.url).getD [] ∧
            cmpStr x.url y.url ≠ .gt))
      (sort_tabs_by_domain tabs) := by
  constructor
  · unfold sort_tabs_by_domain
    rw [← map_fst_filterMap_extract tabs]
    exact (List.perm_insertionSort tabDomLe _).map Prod.fst
  · unfold sort_tabs_by_domain
    rw [List.pairwise_map]
    have hsorted : List.Pairwise tabDomLe
        (List.insertionSort tabDomLe
          (tabs.filterMap (fun t => (extract_domain t.url).map (fun d => (t, d))))) :=
      List.sorted_insertionSort tabDomLe _
    refine hsorted.imp_of_mem ?_
    intro a b ha hb hle
    rw [List.mem_insertionSort] at ha hb
    have hda := mem_pairs_extract ha
    have hdb := mem_pairs_extract hb
    rw [tabDomLe_iff] at hle
    rw [hda, hdb]
    simpa using hle

example :
    sort_tabs_by_domain
      [⟨1, strOf "https://github.com/rust", strOf "GitHub Rust", false, 1⟩,
       ⟨2, strOf "https://www.google.com", strOf "Google", false, 2⟩,
       ⟨3, strOf "https://docs.microsoft.com", strOf "Microsoft Docs", false, 3⟩,
       ⟨4, strOf "https://mail.google.com", strOf "Gmail", false, 4⟩]
      = [⟨1, strOf "https://github.com/rust", strOf "GitHub Rust", false, 1⟩,
         ⟨4, strOf "https://mail.google.com", strOf "Gmail", false, 4⟩,
         ⟨2, strOf "https://www.google.com", strOf "Google", false, 2⟩,
         ⟨3, strOf "https://docs.microsoft.com", strOf "Microsoft Docs", false, 3⟩] := by
  decide

/-- `SavedTab` from `src/tab_data.rs`. -/
structure SavedTab where
  url : Str
  title : Str
  domain : Str
  pinned : Bool
deriving DecidableEq

/-- `CollapsedSession` from `src/tab_data.rs`.  The `timestamp` field is
`f64` in the source; it is modelled as an exact rational value (JSON
serialization of an `f64` is exact and lossless, which is all the claims
use). -/
structure CollapsedSession where
  id : Str
  name : Str
  timestamp : Rat
  tabs : List SavedTab
deriving DecidableEq

/-- `StorageData` from `src/storage.rs`. -/
structure StorageData where
  sessions : List CollapsedSession
deriving DecidableEq

/-- `StorageData::add_session`. -/
def add_session (st : StorageData) (session : CollapsedSession) : StorageData :=
  ⟨st.sessions ++ [session]⟩

/-- `StorageData::remove_session`: `retain` every session whose id
differs, report whether the length shrank. -/
def remove_session (st : StorageData) (session_id : Str) : StorageData × Bool :=
  let kept := st.sessions.filter (fun s => decide (s.id ≠ session_id))
  (⟨kept⟩, decide (kept.length < st.sessions.length))

/-- `StorageData::get_session`: first session with matching id. -/
def get_session (st : StorageData) (session_id : Str) : Option CollapsedSession :=
  st.sessions.find? (fun s => decide (s.id = session_id))

/-- Recursion for `update_session_name`: replace the name of the first
session with matching id, report whether one was found. -/
def update_session_name_list (session_id new_name : Str) :
    List CollapsedSession → List CollapsedSession × Bool
  | [] => ([], false)
  | s :: ss =>
    if s.id = session_id then
      ({ s with name := new_name } :: ss, true)
    else
      let r := update_session_name_list session_id new_name ss
      (s :: r.1, r.2)

/-- `StorageData::update_session_name`. -/
def update_session_name (st : StorageData) (session_id new_name : Str) :
    StorageData × Bool :=
  let r := update_session_name_list session_id new_name st.sessions
  (⟨r.1⟩, r.2)

theorem update_session_name_list_missing (session_id new_name : Str)
    (l : List CollapsedSession) (h : ∀ s ∈ l, s.id ≠ session_id) :
    update_session_name_list session_id new_name l = (l, false) := by
  induction l with
  | nil => rfl
  | cons s ss ih =>
    rw [update_session_name_list,
      if_neg (h s (List.mem_cons_self s ss)),
      ih (fun x hx => h x (List.mem_cons_of_mem s hx))]

/-- C9: on an identifier matching no session, `remove_session` and
`update_session_name` both return false and leave the store unchanged. -/
theorem C9_missing_id (st : StorageData) (session_id new_name : Str)
    (h : ∀ s ∈ st.sessions, s.id ≠ session_id) :
    remove_session st session_id = (st, false) ∧
    update_session_name st session_id new_name = (st, false) := by
  constructor
  · unfold remove_session
    have hfilter : st.sessions.filter (fun s => decide (s.id ≠ session_id))
        = st.sessions :=
      List.filter_eq_self.mpr (fun s hs => by simp [h s hs])
    rw [hfilter]
    simp
  · unfold update_session_name
    rw [update_session_name_list_missing session_id new_name st.sessions h]

theorem C9_witness :
    remove_session
        ⟨[⟨strOf "session-1", strOf "Session 1", 1698508200000, []⟩]⟩
        (strOf "nonexistent")
      = (⟨[⟨strOf "session-1", strOf "Session 1", 1698508200000, []⟩]⟩, false) ∧
    update_session_name
        ⟨[⟨strOf "session-1", strOf "Session 1", 1698508200000, []⟩]⟩
        (strOf "nonexistent") (strOf "New Name")
      = (⟨[⟨strOf "session-1", strOf "Session 1", 1698508200000, []⟩]⟩, false) :=
  C9_missing_id
    ⟨[⟨strOf "session-1", strOf "Session 1", 1698508200000, []⟩]⟩
    (strOf "nonexistent") (strOf "New Name") (by decide)

theorem length_filter_lt_of_mem_false {α : Type} {p : α → Bool} :
    ∀ l : List α, (∃ x ∈ l, p x = false) → (l.filter p).length < l.length := by
  intro l
  induction l with
  | nil => rintro ⟨x, hx, _⟩; exact absurd hx (List.not_mem_nil x)
  | cons a as ih =>
    rintro ⟨x, hx, hpx⟩
    rw [List.filter_cons]
    rcases List.mem_cons.mp hx with rfl | hmem
    · rw [if_neg (by simp [hpx])]
      have := List.length_filter_le p as
      simpa using Nat.lt_succ_of_le this
    · by_cases hpa : p a
      · rw [if_pos hpa]
        simpa using Nat.succ_lt_succ (ih ⟨x, hmem, hpx⟩)
      · rw [if_neg (by simpa using hpa)]
        exact Nat.lt_succ_of_lt (ih ⟨x, hmem, hpx⟩)

/-- C10: when at least one stored session carries the identifier (also
when several do, the caller-contract violation), `remove_session` returns
true and its result keeps exactly the sessions with a different
identifier, in their original relative order — every session bearing the
identifier is removed, not only the first. -/
theorem C10_remove_all_matching (st : StorageData) (session_id : Str)
    (h : ∃ s ∈ st.sessions, s.id = session_id) :
    (remove_session st session_id).2 = true ∧
    (remove_session st session_id).1.sessions
      = st.sessions.filter (fun s => decide (s.id ≠ session_id)) ∧
    (∀ s ∈ (remove_session st session_id).1.sessions, s.id ≠ session_id) := by
  refine ⟨?_, rfl, ?_⟩
  · unfold remove_session
    simp only [decide_eq_true_eq]
    obtain ⟨s, hs, hid⟩ := h
    exact length_filter_lt_of_mem_false st.sessions ⟨s, hs, by simp [hid]⟩
  · intro s hs
    unfold remove_session at hs
    have := List.of_mem_filter hs
    simpa using this

theorem C10_witness :
    (remove_session
        ⟨[⟨strOf "dup", strOf "A", 1, []⟩,
          ⟨strOf "other", strOf "B", 2, []⟩,
          ⟨strOf "dup", strOf "C", 3, []⟩]⟩
        (strOf "dup")).2 = true ∧
    (remove_session
        ⟨[⟨strOf "dup", strOf "A", 1, []⟩,
          ⟨strOf "other", strOf "B", 2, []⟩,
          ⟨strOf "dup", strOf "C", 3, []⟩]⟩
        (strOf "dup")).1.sessions
      = [⟨strOf "other", strOf "B", 2, []⟩] :=
  ⟨(C10_remove_all_matching
      ⟨[⟨strOf "dup", strOf "A", 1, []⟩,
        ⟨strOf "other", strOf "B", 2, []⟩,
        ⟨strOf "dup", strOf "C", 3, []⟩]⟩
      (strOf "dup")
      ⟨⟨strOf "dup", strOf "A", 1, []⟩, by decide, rfl⟩).1,
   by decide⟩

/-- Modelled from the spec: the JSON-shaped structured-text values that
`serde_json` produces and consumes; the derive-generated serialization
code is not part of `src/`, so the §6 persistence schema is modelled
directly on this abstract JSON syntax (numbers carried exactly). -/
inductive Json where
  | str : Str → Json
  | num : Rat → Json
  | bool : Bool → Json
  | arr : List Json → Json
  | obj : List (Str × Json) → Json

/-- Field lookup in a JSON object. -/
def getField : List (Str × Json) → Str → Option Json
  | [], _ => none
  | (k, v) :: rest, key => if k = key then some v else getField rest key

def asStr : Json → Option Str
  | .str s => some s
  | _ => none

def asNum : Json → Option Rat
  | .num q => some q
  | _ => none

def asBool : Json → Option Bool
  | .bool b => some b
  | _ => none

def asArr : Json → Option (List Json)
  | .arr l => some l
  | _ => none

/-- Deserialize each element of a JSON array, failing if any fails. -/
def mapOption {α β : Type} (f : α → Option β) : List α → Option (List β)
  | [] => some []
  | a :: as => do
      let b ← f a
      let bs ← mapOption f as
      some (b :: bs)

/-- Modelled from the spec: serialization of a `SavedTab` with the §6
schema fields `url`, `title`, `domain`, `pinned`. -/
def savedTab_toJson (t : SavedTab) : Json :=
  .obj [(strOf "url", .str t.url), (strOf "title", .str t.title),
        (strOf "domain", .str t.domain), (strOf "pinned", .bool t.pinned)]

/-- Modelled from the spec: deserialization of a `SavedTab`. -/
def savedTab_fromJson : Json → Option SavedTab
  | .obj fields => do
      let u ← getField fields (strOf "url") >>= asStr
      let t ← getField fields (strOf "title") >>= asStr
      let d ← getField fields (strOf "domain") >>= asStr
      let p ← getField fields (strOf "pinned") >>= asBool
      some ⟨u, t, d, p⟩
  | _ => none

/-- Modelled from the spec: serialization of a `CollapsedSession` with
the §6 schema fields `id`, `name`, `timestamp`, `tabs`. -/
def session_toJson (s : CollapsedSession) : Json :=
  .obj [(strOf "id", .str s.id), (strOf "name", .str s.name),
        (strOf "timestamp", .num s.timestamp),
        (strOf "tabs", .arr (s.tabs.map savedTab_toJson))]

/-- Modelled from the spec: deserialization of a `CollapsedSession`. -/
def session_fromJson : Json → Option CollapsedSession
  | .obj fields => do
      let i ← getField fields (strOf "id") >>= asStr
      let n ← getField fields (strOf "name") >>= asStr
      let ts ← getField fields (strOf "timestamp") >>= asNum
      let tj ← getField fields (strOf "tabs") >>= asArr
      let tabs ← mapOption savedTab_fromJson tj
      some ⟨i, n, ts, tabs⟩
  | _ => none

/-- Modelled from the spec: serialization of the root `StorageData`
structure with its `sessions` field. -/
def storage_toJson (st : StorageData) : Json :=
  .obj [(strOf "sessions", .arr (st.sessions.map session_toJson))]

/-- Modelled from the spec: deserialization of the root `StorageData`. -/
def storage_fromJson : Json → Option StorageData
  | .obj fields => do
      let sj ← getField fields (strOf "sessions") >>= asArr
      let sessions ← mapOption session_fromJson sj
      some ⟨sessions⟩
  | _ => none

theorem mapOption_map_of_id {α : Type} (g : α → Json) (f : Json → Option α)
    (hf : ∀ a : α, f (g a) = some a) :
    ∀ l : List α, mapOption f (l.map g) = some l := by
  intro l
  induction l with
  | nil => rfl
  | cons a as ih =>
    rw [List.map_cons, mapOption, hf a, ih]
    rfl

theorem savedTab_roundtrip (t : SavedTab) :
    savedTab_fromJson (savedTab_toJson t) = some t := by
  cases t
  rfl

theorem session_roundtrip (s : CollapsedSession) :
    session_fromJson (session_toJson s) = some s := by
  cases s with
  | mk i n ts tabs =>
    show Option.bind (mapOption savedTab_fromJson (tabs.map savedTab_toJson))
        (fun tabs2 => some (CollapsedSession.mk i n ts tabs2))
      = some (CollapsedSession.mk i n ts tabs)
    rw [mapOption_map_of_id savedTab_toJson savedTab_fromJson savedTab_roundtrip tabs]
    rfl

/-- C7: serializing a `StorageData` (any number of sessions, including
sessions with empty tab lists) and deserializing the result reproduces
every field of the original structure. -/
theorem C7_storage_roundtrip (store : StorageData) :
    storage_fromJson (storage_toJson store) = some store := by
  cases store with
  | mk sessions =>
    show Option.bind (mapOption session_fromJson (sessions.map session_toJson))
        (fun sessions2 => some (StorageData.mk sessions2))
      = some (StorageData.mk sessions)
    rw [mapOption_map_of_id session_toJson session_fromJson session_roundtrip sessions]
    rfl

example :
    storage_fromJson (storage_toJson
      ⟨[⟨strOf "test-123", strOf "Test Session", 1698508200000,
         [⟨strOf "https://google.com", strOf "Google", strOf "google.com", false⟩]⟩,
        ⟨strOf "empty", strOf "No Tabs", 0, []⟩]⟩)
      = some
        ⟨[⟨strOf "test-123", strOf "Test Session", 1698508200000,
           [⟨strOf "https://google.com", strOf "Google", strOf "google.com", false⟩]⟩,
          ⟨strOf "empty", strOf "No Tabs", 0, []⟩]⟩ := by
  decide
